import Mathlib

/-!
Shallow embedding of the mcr-sync reconciliation daemon (`src/index.ts`).

The program keeps an mc-router routing table in sync with routes derived
from Docker container labels and a manual YAML configuration.  JavaScript
`Map` objects are modelled as association lists with unique keys in
insertion order: `mapGet` is `Map.get`, `mapSet` is `Map.set` (update in
place, append when absent), `mapDelete` is `Map.delete`.  JS `undefined`
becomes `Option.none`.
-/

namespace McrSync

abbrev RouteName := String
abbrev Backend := String

/-- A JS `Map<string, string>` / plain object, as an association list in
insertion order. -/
abbrev RouteMap := List (RouteName × Backend)

/-- JS `Map.get` / `Record` lookup: first entry with the key, `none` when absent. -/
def mapGet (m : RouteMap) (k : String) : Option String :=
  (m.find? (fun p => p.1 = k)).map Prod.snd

/-- JS `Map.set`: replace the value of an existing key in place, append
`(k, v)` when the key is absent. -/
def mapSet : RouteMap → String → String → RouteMap
  | [], k, v => [(k, v)]
  | p :: rest, k, v => if p.1 = k then (k, v) :: rest else p :: mapSet rest k v

/-- JS `Map.delete`: drop the entry with the given key. -/
def mapDelete (m : RouteMap) (k : String) : RouteMap :=
  m.filter (fun p => p.1 ≠ k)

/-- Keys of the map, in order. -/
def keys (m : RouteMap) : List String := m.map Prod.fst

/-- The map represents a JS `Map`: no duplicate keys. -/
abbrev NodupKeys (m : RouteMap) : Prop := (keys m).Nodup

/-- A sequence of `Map.set` writes applied left to right. -/
def applyAdds (m : RouteMap) (l : RouteMap) : RouteMap :=
  l.foldl (fun acc p => mapSet acc p.1 p.2) m

/-- A sequence of `Map.delete` operations applied left to right. -/
def applyDels (m : RouteMap) (names : List String) : RouteMap :=
  names.foldl mapDelete m

/-- One entry of `containerInfo.Ports` (`dockerode`): the core only reads
`PublicPort`, which may be absent. -/
structure PortData where
  publicPort : Option Nat
deriving DecidableEq, Repr

/-- One running container as reported by `docker.listContainers()`: a label
map and a list of published ports. -/
structure ContainerInfo where
  labels : List (String × String)
  ports : List PortData
deriving DecidableEq, Repr

/-- Reads `containerInfo.Labels[key]`. -/
def getLabel (c : ContainerInfo) (key : String) : Option String :=
  (c.labels.find? (fun p => p.1 = key)).map Prod.snd

/-- JS `String.prototype.split(sep)` on a single-character separator, at the
character level: `"" ↦ [""]`, `"," ↦ ["", ""]`, `"a,b" ↦ ["a", "b"]`. -/
def splitCharsOn (sep : Char) : List Char → List (List Char)
  | [] => [[]]
  | c :: rest =>
    match splitCharsOn sep rest with
    | [] => if c = sep then [[], []] else [[c]]
    | g :: gs => if c = sep then [] :: g :: gs else (c :: g) :: gs

/-- JS `String.prototype.trim()`: strip leading and trailing whitespace. -/
def trimChars (l : List Char) : List Char :=
  ((l.dropWhile Char.isWhitespace).reverse.dropWhile Char.isWhitespace).reverse

/-- Computes `slugsLabel.split(',').map(s => s.trim()).filter(Boolean)`. -/
def splitSlugs (s : String) : List String :=
  (((splitCharsOn ',' s.toList).map (fun g => String.mk (trimChars g))).filter
    (fun t => t ≠ ""))

/-- One `ManualServerConfig` from the config file: `override_suffix` is an
optional field. -/
structure ManualServerConfig where
  host : String
  port : Nat
  override_suffix : Option (List String)
deriving DecidableEq, Repr

/-- The parsed `config.yml`.  `manual` is a `Record<string,
ManualServerConfig>`, i.e. an object with unique keys, kept in enumeration
order as an association list. -/
structure Config where
  default_domain_suffix : List String
  manual : List (String × ManualServerConfig)
deriving DecidableEq, Repr

/-- Computes `` `${manualConfig.host}:${manualConfig.port}` ``. -/
def manualBackend (mc : ManualServerConfig) : String :=
  mc.host ++ ":" ++ toString mc.port

/-- Computes `manualConfig.override_suffix || config.default_domain_suffix`.
In JavaScript `undefined` is falsy but *any* array, including the empty
array, is truthy, so a present-but-empty `override_suffix` is used as is. -/
def chosenSuffixes (cfg : Config) (mc : ManualServerConfig) : List String :=
  match mc.override_suffix with
  | some l => l
  | none => cfg.default_domain_suffix

/-- Modelled from the spec (for comparison with `chosenSuffixes`): the
suffix list is `override_suffix` when *present and non-empty*, else
`default_domain_suffix`. -/
def chosenSuffixesSpec (cfg : Config) (mc : ManualServerConfig) : List String :=
  match mc.override_suffix with
  | some l => if l = [] then cfg.default_domain_suffix else l
  | none => cfg.default_domain_suffix

/-- JS `String.prototype.includes` on a single character. -/
def containsChar (s : String) (c : Char) : Bool :=
  s.toList.contains c

/-- Computes `` suffix.includes('.') ? slug : `${slug}.${suffix}` ``. -/
def manualRouteName (slug suffix : String) : String :=
  if containsChar suffix '.' then slug else slug ++ "." ++ suffix

/-- Translates `getDockerRoutes`: scan containers for the `router.slug` label and build
the slug → backend map.  A container whose label is missing or empty (JS
falsiness), or that has no first port with a `PublicPort`, contributes
nothing.  `hostIP` is `DOCKER_HOST_IP`. -/
def getDockerRoutes (hostIP : String) (containers : List ContainerInfo) : RouteMap :=
  containers.foldl
    (fun routes c =>
      match getLabel c "router.slug" with
      | none => routes
      | some slugsLabel =>
        if slugsLabel = "" then routes
        else
          match c.ports.head? with
          | none => routes
          | some portData =>
            match portData.publicPort with
            | none => routes
            | some port =>
              (splitSlugs slugsLabel).foldl
                (fun r slug => mapSet r slug (hostIP ++ ":" ++ toString port)) routes)
    []

/-- The `(slug, backend)` writes one container performs on the
`getDockerRoutes` map, in order. -/
def containerSlugWrites (hostIP : String) (c : ContainerInfo) : RouteMap :=
  match getLabel c "router.slug" with
  | none => []
  | some slugsLabel =>
    if slugsLabel = "" then []
    else
      match c.ports.head? with
      | none => []
      | some portData =>
        match portData.publicPort with
        | none => []
        | some port =>
          (splitSlugs slugsLabel).map (fun slug => (slug, hostIP ++ ":" ++ toString port))

/-- All `(slug, backend)` writes of a container scan, in enumeration order. -/
def dockerSlugWrites (hostIP : String) (containers : List ContainerInfo) : RouteMap :=
  containers.flatMap (containerSlugWrites hostIP)

/-- Step 1 of `syncRoutes`: the `(routeName, backend)` writes derived from
the docker slug → backend map, in order. -/
def dockerNameWrites (cfg : Config) (dockerRoutes : RouteMap) : RouteMap :=
  dockerRoutes.flatMap
    (fun p => cfg.default_domain_suffix.map (fun suffix => (p.1 ++ "." ++ suffix, p.2)))

/-- Step 2 of `syncRoutes`: the `(routeName, backend)` writes derived from
the manual config entries, in order. -/
def manualWrites (cfg : Config) : RouteMap :=
  cfg.manual.flatMap
    (fun p => (chosenSuffixes cfg p.2).map
      (fun suffix => (manualRouteName p.1 suffix, manualBackend p.2)))

/-- Per-entry route writes of the manual pass (the body of the manual `for`
loop for one `(slug, manualConfig)` entry). -/
def entryWrites (cfg : Config) (slug : String) (mc : ManualServerConfig) : RouteMap :=
  (chosenSuffixes cfg mc).map
    (fun suffix => (manualRouteName slug suffix, manualBackend mc))

/-- The desired-state build of `syncRoutes`: docker routes expanded by
`default_domain_suffix`, then manual entries, each written into one fresh
`Map`. -/
def buildDesired (cfg : Config) (dockerRoutes : RouteMap) : RouteMap :=
  let d1 := dockerRoutes.foldl
    (fun m p =>
      cfg.default_domain_suffix.foldl
        (fun m suffix => mapSet m (p.1 ++ "." ++ suffix) p.2) m)
    []
  cfg.manual.foldl
    (fun m p =>
      (chosenSuffixes cfg p.2).foldl
        (fun m suffix => mapSet m (manualRouteName p.1 suffix) (manualBackend p.2)) m)
    d1

/-- One router API call issued by the diff step. -/
inductive Call where
  | addOrUpdate (address : String) (backend : String)
  | delete (address : String)
deriving DecidableEq, Repr

/-- The address an API call is about. -/
def callName : Call → String
  | .addOrUpdate a _ => a
  | .delete a => a

/-- Whether a call is an add-or-update. -/
def isAdd : Call → Bool
  | .addOrUpdate _ _ => true
  | .delete _ => false

/-- The calls a cycle issues about one address, in order. -/
def callsFor (n : String) (cs : List Call) : List Call :=
  cs.filter (fun c => callName c = n)

/-- Holds when no add-or-update call follows a delete call: dropping the
leading add-or-update calls leaves only delete calls. -/
def addsBeforeDeletes (cs : List Call) : Bool :=
  (cs.dropWhile isAdd).all (fun c => !(isAdd c))

/-- Step 3 of `syncRoutes`: `addOrUpdateRoute` for every desired entry whose
current value differs (`currentMappings.get(address) !== backend`) and then
`deleteRoute` for every current entry absent from desired, in iteration
order. -/
def diffCalls (desired current : RouteMap) : List Call :=
  (desired.filter (fun p => mapGet current p.1 ≠ some p.2)).map
      (fun p => Call.addOrUpdate p.1 p.2)
    ++ (current.filter (fun p => mapGet desired p.1 = none)).map
      (fun p => Call.delete p.1)

/-- Effect of one successful router API call on the router's route table. -/
def applyCall (m : RouteMap) : Call → RouteMap
  | .addOrUpdate a b => mapSet m a b
  | .delete a => mapDelete m a

/-- Effect of a successful call sequence on the router's route table. -/
def applyCalls (m : RouteMap) (cs : List Call) : RouteMap :=
  cs.foldl applyCall m

/-- Outcome of one `syncRoutes` cycle: the API calls issued, and whether the
cycle was skipped (config load failure or observed-state fetch failure). -/
structure CycleResult where
  calls : List Call
  skipped : Bool
deriving DecidableEq, Repr

/-- One `syncRoutes` cycle.  `configR` is the `loadConfig()` result (`none`
on failure), `dockerList` the `docker.listContainers()` result (`none` when
the scan throws, in which case `getDockerRoutes` returns its routes built so
far, i.e. the empty map), `fetchR` the `getMcRouterRoutes()` result (`none`
on failure). -/
def syncRoutes (configR : Option Config) (hostIP : String)
    (dockerList : Option (List ContainerInfo)) (fetchR : Option RouteMap) :
    CycleResult :=
  match configR with
  | none => { calls := [], skipped := true }
  | some cfg =>
    let dockerRoutes :=
      match dockerList with
      | none => []
      | some containers => getDockerRoutes hostIP containers
    let desired := buildDesired cfg dockerRoutes
    match fetchR with
    | none => { calls := [], skipped := true }
    | some current => { calls := diffCalls desired current, skipped := false }

/-! ### Association-list map lemmas -/

theorem manualWrites_eq_entryWrites (cfg : Config) :
    manualWrites cfg = cfg.manual.flatMap (fun p => entryWrites cfg p.1 p.2) := rfl

theorem dropWhile_append_of_all {α : Type} (p : α → Bool) (l₁ l₂ : List α)
    (h : ∀ a ∈ l₁, p a = true) :
    (l₁ ++ l₂).dropWhile p = l₂.dropWhile p := by
  induction l₁ with
  | nil => rfl
  | cons a rest ih =>
    rw [List.cons_append, List.dropWhile_cons, if_pos (h a (List.mem_cons_self a rest))]
    exact ih (fun b hb => h b (List.mem_cons_of_mem a hb))

theorem mapGet_nil (k : String) : mapGet [] k = none := rfl

theorem mapGet_cons (p : RouteName × Backend) (m : RouteMap) (k : String) :
    mapGet (p :: m) k = if p.1 = k then some p.2 else mapGet m k := by
  by_cases h : p.1 = k <;> simp [mapGet, List.find?_cons, h]

theorem mapGet_append (l₁ l₂ : RouteMap) (k : String) :
    mapGet (l₁ ++ l₂) k = (mapGet l₁ k).or (mapGet l₂ k) := by
  unfold mapGet
  rw [List.find?_append]
  cases List.find? (fun p => decide (p.1 = k)) l₁ <;> simp

theorem mapGet_mapSet (m : RouteMap) (k v k' : String) :
    mapGet (mapSet m k v) k' = if k' = k then some v else mapGet m k' := by
  induction m with
  | nil =>
    rw [show mapSet [] k v = [(k, v)] from rfl, mapGet_cons]
    by_cases h : k' = k
    · simp [h]
    · have h1 : k ≠ k' := fun hc => h hc.symm
      simp [h, h1, mapGet_nil]
  | cons p rest ih =>
    by_cases hp : p.1 = k
    · rw [show mapSet (p :: rest) k v = (k, v) :: rest from by simp [mapSet, hp],
        mapGet_cons, mapGet_cons]
      by_cases h : k' = k
      · simp [h]
      · have h1 : k ≠ k' := fun hc => h hc.symm
        have h2 : p.1 ≠ k' := fun hc => h1 (hp.symm.trans hc)
        simp [h, h1, h2]
    · rw [show mapSet (p :: rest) k v = p :: mapSet rest k v from by
        simp [mapSet, hp], mapGet_cons, ih, mapGet_cons]
      by_cases h : k' = k
      · have h2 : p.1 ≠ k' := fun hc => hp (hc.trans h)
        simp [h, h2, hp]
      · simp [h]

theorem mapGet_mapDelete (m : RouteMap) (k k' : String) :
    mapGet (mapDelete m k) k' = if k' = k then none else mapGet m k' := by
  induction m with
  | nil => simp [mapDelete, mapGet_nil]
  | cons p rest ih =>
    by_cases hp : p.1 = k
    · rw [show mapDelete (p :: rest) k = mapDelete rest k from by
        simp [mapDelete, hp], ih, mapGet_cons]
      by_cases h : k' = k
      · simp [h]
      · have h2 : p.1 ≠ k' := fun hc => h (hp.symm.trans hc).symm
        simp [h, h2]
    · rw [show mapDelete (p :: rest) k = p :: mapDelete rest k from by
        simp [mapDelete, hp], mapGet_cons, ih, mapGet_cons]
      by_cases h : k' = k
      · have h2 : p.1 ≠ k' := fun hc => hp (hc.trans h)
        simp [h, h2, hp]
      · simp [h]

theorem mem_keys_iff (m : RouteMap) (k : String) :
    k ∈ keys m ↔ ∃ v, (k, v) ∈ m := by
  simp only [keys, List.mem_map]
  constructor
  · rintro ⟨⟨a, b⟩, hm, rfl⟩
    exact ⟨b, hm⟩
  · rintro ⟨v, hv⟩
    exact ⟨(k, v), hv, rfl⟩

theorem mapGet_eq_none_iff (m : RouteMap) (k : String) :
    mapGet m k = none ↔ k ∉ keys m := by
  unfold mapGet
  rw [Option.map_eq_none', List.find?_eq_none]
  simp only [decide_eq_true_eq]
  constructor
  · intro h hk
    obtain ⟨v, hv⟩ := (mem_keys_iff m k).1 hk
    exact h _ hv rfl
  · intro h p hp hpk
    exact h ((mem_keys_iff m k).2 ⟨p.2, by rwa [← hpk, Prod.mk.eta]⟩)

theorem mapGet_isSome_of_mem (m : RouteMap) (k v : String) (h : (k, v) ∈ m) :
    (mapGet m k).isSome := by
  rw [Option.isSome_iff_ne_none]
  intro hn
  exact (mapGet_eq_none_iff m k).1 hn ((mem_keys_iff m k).2 ⟨v, h⟩)

theorem mem_of_mapGet_eq_some (m : RouteMap) (k v : String)
    (h : mapGet m k = some v) : (k, v) ∈ m := by
  unfold mapGet at h
  obtain ⟨p, hp, hpv⟩ := Option.map_eq_some'.1 h
  have hk : p.1 = k := by
    have := List.find?_some hp
    simpa using this
  have hm := List.mem_of_find?_eq_some hp
  rwa [← hk, ← hpv, Prod.mk.eta]

theorem nodupKeys_cons_iff (p : RouteName × Backend) (m : RouteMap) :
    NodupKeys (p :: m) ↔ p.1 ∉ keys m ∧ NodupKeys m := by
  simp [NodupKeys, keys, List.nodup_cons]

theorem mapGet_eq_some_of_mem_nodup (m : RouteMap) (k v : String)
    (hnd : NodupKeys m) (h : (k, v) ∈ m) : mapGet m k = some v := by
  induction m with
  | nil => cases h
  | cons p rest ih =>
    obtain ⟨hp, hrest⟩ := (nodupKeys_cons_iff p rest).1 hnd
    rcases List.mem_cons.1 h with heq | hmem
    · rw [← heq, mapGet_cons]
      simp
    · have hk : k ∈ keys rest := (mem_keys_iff rest k).2 ⟨v, hmem⟩
      have hne : p.1 ≠ k := fun hc => hp (hc ▸ hk)
      rw [mapGet_cons, if_neg hne]
      exact ih hrest hmem

theorem mem_keys_mapSet (m : RouteMap) (k v x : String) :
    x ∈ keys (mapSet m k v) ↔ x ∈ keys m ∨ x = k := by
  induction m with
  | nil =>
    rw [show mapSet [] k v = [(k, v)] from rfl]
    simp [keys]
  | cons p rest ih =>
    by_cases hp : p.1 = k
    · rw [show mapSet (p :: rest) k v = (k, v) :: rest from by simp [mapSet, hp]]
      simp only [keys, List.map_cons, List.mem_cons] at ih ⊢
      rw [hp]
      tauto
    · rw [show mapSet (p :: rest) k v = p :: mapSet rest k v from by
        simp [mapSet, hp]]
      simp only [keys, List.map_cons, List.mem_cons] at ih ⊢
      rw [ih]
      tauto

theorem nodupKeys_mapSet (m : RouteMap) (k v : String) (h : NodupKeys m) :
    NodupKeys (mapSet m k v) := by
  induction m with
  | nil =>
    rw [show mapSet [] k v = [(k, v)] from rfl]
    simp [NodupKeys, keys]
  | cons p rest ih =>
    obtain ⟨hp, hrest⟩ := (nodupKeys_cons_iff p rest).1 h
    by_cases hpk : p.1 = k
    · rw [show mapSet (p :: rest) k v = (k, v) :: rest from by simp [mapSet, hpk]]
      refine (nodupKeys_cons_iff _ _).2 ⟨?_, hrest⟩
      exact fun hc => hp (hpk.symm ▸ hc)
    · rw [show mapSet (p :: rest) k v = p :: mapSet rest k v from by
        simp [mapSet, hpk]]
      refine (nodupKeys_cons_iff _ _).2 ⟨?_, ih hrest⟩
      rw [mem_keys_mapSet]
      rintro (hc | hc)
      · exact hp hc
      · exact hpk hc

theorem applyAdds_nil (m : RouteMap) : applyAdds m [] = m := rfl

theorem applyAdds_cons (m : RouteMap) (p : RouteName × Backend) (l : RouteMap) :
    applyAdds m (p :: l) = applyAdds (mapSet m p.1 p.2) l := rfl

theorem applyAdds_append (m : RouteMap) (l₁ l₂ : RouteMap) :
    applyAdds m (l₁ ++ l₂) = applyAdds (applyAdds m l₁) l₂ :=
  List.foldl_append _ _ _ _

theorem mapGet_applyAdds (m l : RouteMap) (k : String) :
    mapGet (applyAdds m l) k = (mapGet l.reverse k).or (mapGet m k) := by
  induction l generalizing m with
  | nil => simp [applyAdds, mapGet_nil]
  | cons p rest ih =>
    rw [applyAdds_cons, ih, List.reverse_cons, mapGet_append, Option.or_assoc]
    congr 1
    rw [mapGet_mapSet, mapGet_cons]
    by_cases h : k = p.1
    · simp [h]
    · have h2 : p.1 ≠ k := fun hc => h hc.symm
      simp [h, h2, mapGet_nil]

theorem nodupKeys_applyAdds (m l : RouteMap) (h : NodupKeys m) :
    NodupKeys (applyAdds m l) := by
  induction l generalizing m with
  | nil => exact h
  | cons p rest ih => exact ih _ (nodupKeys_mapSet m p.1 p.2 h)

theorem mapGet_applyDels (m : RouteMap) (names : List String) (k : String) :
    mapGet (applyDels m names) k = if k ∈ names then none else mapGet m k := by
  induction names generalizing m with
  | nil => simp [applyDels]
  | cons n rest ih =>
    rw [show applyDels m (n :: rest) = applyDels (mapDelete m n) rest from rfl, ih,
      mapGet_mapDelete]
    by_cases h1 : k ∈ rest
    · simp [h1]
    · by_cases h2 : k = n <;> simp [h1, h2]

/-! ### Normalizing the build folds into flat write lists -/

theorem foldl_mapSet_eq_applyAdds {α : Type} (nameOf : α → String)
    (backOf : α → String) (l : List α) (m : RouteMap) :
    l.foldl (fun acc a => mapSet acc (nameOf a) (backOf a)) m
      = applyAdds m (l.map (fun a => (nameOf a, backOf a))) := by
  induction l generalizing m with
  | nil => rfl
  | cons a rest ih =>
    rw [List.foldl_cons, List.map_cons, applyAdds_cons]
    exact ih _

theorem foldl_applyAdds_eq_flatMap {α : Type} (w : α → RouteMap)
    (step : RouteMap → α → RouteMap) (hstep : ∀ m a, step m a = applyAdds m (w a))
    (l : List α) (m : RouteMap) :
    l.foldl step m = applyAdds m (l.flatMap w) := by
  induction l generalizing m with
  | nil => rfl
  | cons a rest ih =>
    rw [List.foldl_cons, hstep, List.flatMap_cons, applyAdds_append]
    exact ih _

theorem getDockerRoutes_eq_applyAdds (hostIP : String) (cs : List ContainerInfo) :
    getDockerRoutes hostIP cs = applyAdds [] (dockerSlugWrites hostIP cs) := by
  have hstep : ∀ (routes : RouteMap) (c : ContainerInfo),
      (match getLabel c "router.slug" with
       | none => routes
       | some slugsLabel =>
         if slugsLabel = "" then routes
         else
           match c.ports.head? with
           | none => routes
           | some portData =>
             match portData.publicPort with
             | none => routes
             | some port =>
               (splitSlugs slugsLabel).foldl
                 (fun r slug => mapSet r slug (hostIP ++ ":" ++ toString port)) routes)
        = applyAdds routes (containerSlugWrites hostIP c) := by
    intro routes c
    unfold containerSlugWrites
    cases hl : getLabel c "router.slug" with
    | none => rfl
    | some lbl =>
      by_cases he : lbl = ""
      · simp [he, applyAdds]
      · cases hp : c.ports.head? with
        | none => simp [hp, he, applyAdds]
        | some pd =>
          cases hpp : pd.publicPort with
          | none => simp [hp, hpp, he, applyAdds]
          | some port =>
            simp only [hp, hpp, if_neg he]
            exact foldl_mapSet_eq_applyAdds (fun s => s)
              (fun _ => hostIP ++ ":" ++ toString port) _ _
  exact foldl_applyAdds_eq_flatMap _ _ hstep cs []

theorem buildDesired_eq_applyAdds (cfg : Config) (dockerRoutes : RouteMap) :
    buildDesired cfg dockerRoutes
      = applyAdds (applyAdds [] (dockerNameWrites cfg dockerRoutes))
          (manualWrites cfg) := by
  have h1 : ∀ (m : RouteMap) (p : RouteName × Backend),
      cfg.default_domain_suffix.foldl
          (fun m suffix => mapSet m (p.1 ++ "." ++ suffix) p.2) m
        = applyAdds m
            (cfg.default_domain_suffix.map (fun suffix => (p.1 ++ "." ++ suffix, p.2))) :=
    fun m p => foldl_mapSet_eq_applyAdds _ _ _ _
  have h2 : ∀ (m : RouteMap) (p : String × ManualServerConfig),
      (chosenSuffixes cfg p.2).foldl
          (fun m suffix => mapSet m (manualRouteName p.1 suffix) (manualBackend p.2)) m
        = applyAdds m
            ((chosenSuffixes cfg p.2).map
              (fun suffix => (manualRouteName p.1 suffix, manualBackend p.2))) :=
    fun m p => foldl_mapSet_eq_applyAdds _ _ _ _
  exact Eq.trans (foldl_applyAdds_eq_flatMap _ _ h2 cfg.manual _)
    (congrArg (fun x => applyAdds x (manualWrites cfg))
      (foldl_applyAdds_eq_flatMap _ _ h1 dockerRoutes []))

/-! ### Diff-step lemmas -/

theorem filter_key_of_get_none (m : RouteMap) (n : String) (h : mapGet m n = none) :
    m.filter (fun p => p.1 = n) = [] := by
  rw [List.filter_eq_nil_iff]
  intro p hp
  simp only [decide_eq_true_eq]
  intro hpn
  have hs := mapGet_isSome_of_mem m n p.2 (by rw [← hpn, Prod.mk.eta]; exact hp)
  rw [h] at hs
  exact Bool.noConfusion hs

theorem filter_key_of_get_some (m : RouteMap) (n b : String) (hnd : NodupKeys m)
    (h : mapGet m n = some b) : m.filter (fun p => p.1 = n) = [(n, b)] := by
  induction m with
  | nil => exact absurd h (by simp [mapGet_nil])
  | cons p rest ih =>
    obtain ⟨hp, hrest⟩ := (nodupKeys_cons_iff p rest).1 hnd
    rw [mapGet_cons] at h
    by_cases hpn : p.1 = n
    · rw [if_pos hpn] at h
      have hb : p.2 = b := by injection h
      have hnone : mapGet rest n = none :=
        (mapGet_eq_none_iff rest n).2 (hpn ▸ hp)
      have hpred : decide (p.1 = n) = true := by simp [hpn]
      rw [List.filter_cons, if_pos hpred, filter_key_of_get_none rest n hnone]
      have : p = (n, b) := by
        rw [← hpn, ← hb, Prod.mk.eta]
      rw [this]
    · rw [if_neg hpn] at h
      have hpred : ¬(decide (p.1 = n) = true) := by simp [hpn]
      rw [List.filter_cons, if_neg hpred]
      exact ih hrest h

theorem diffCalls_eq_nil_of_agree (D O : RouteMap) (hD : NodupKeys D)
    (h : ∀ k, mapGet D k = mapGet O k) : diffCalls D O = [] := by
  unfold diffCalls
  have ha : D.filter (fun p => mapGet O p.1 ≠ some p.2) = [] := by
    rw [List.filter_eq_nil_iff]
    intro p hp
    have hg : mapGet D p.1 = some p.2 :=
      mapGet_eq_some_of_mem_nodup D p.1 p.2 hD (by rw [Prod.mk.eta]; exact hp)
    simp [← h p.1, hg]
  have hb : O.filter (fun p => mapGet D p.1 = none) = [] := by
    rw [List.filter_eq_nil_iff]
    intro p hp
    have hs := mapGet_isSome_of_mem O p.1 p.2 (by rw [Prod.mk.eta]; exact hp)
    rw [← h p.1] at hs
    simp only [decide_eq_true_eq]
    intro hc
    rw [hc] at hs
    exact Bool.noConfusion hs
  rw [ha, hb]
  rfl

theorem callsFor_diffCalls (D O : RouteMap) (hD : NodupKeys D) (hO : NodupKeys O)
    (n : String) :
    callsFor n (diffCalls D O)
      = (match mapGet D n, mapGet O n with
         | some b, o => if o = some b then [] else [Call.addOrUpdate n b]
         | none, some _ => [Call.delete n]
         | none, none => []) := by
  unfold callsFor diffCalls
  rw [List.filter_append, List.filter_map, List.filter_map]
  have hca : ((fun c => decide (callName c = n)) ∘ fun p : RouteName × Backend =>
      Call.addOrUpdate p.1 p.2) = fun p : RouteName × Backend => decide (p.1 = n) := by
    funext p
    simp [callName]
  have hcd : ((fun c => decide (callName c = n)) ∘ fun p : RouteName × Backend =>
      Call.delete p.1) = fun p : RouteName × Backend => decide (p.1 = n) := by
    funext p
    simp [callName]
  rw [hca, hcd, List.filter_filter, List.filter_filter]
  have hcommA : D.filter (fun a => decide (a.1 = n) && decide (mapGet O a.1 ≠ some a.2))
      = (D.filter (fun p => p.1 = n)).filter (fun a => mapGet O a.1 ≠ some a.2) := by
    rw [List.filter_filter]
    exact List.filter_congr (fun a _ => Bool.and_comm _ _)
  have hcommB : O.filter (fun a => decide (a.1 = n) && decide (mapGet D a.1 = none))
      = (O.filter (fun p => p.1 = n)).filter (fun a => mapGet D a.1 = none) := by
    rw [List.filter_filter]
    exact List.filter_congr (fun a _ => Bool.and_comm _ _)
  rw [hcommA, hcommB]
  cases hDn : mapGet D n with
  | some b =>
    rw [filter_key_of_get_some D n b hD hDn]
    cases hOn : mapGet O n with
    | some w =>
      have h2 : (O.filter (fun p => p.1 = n)).filter (fun a => decide (mapGet D a.1 = none))
          = [] := by
        rw [filter_key_of_get_some O n w hO hOn]
        simp [List.filter_cons, hDn]
      rw [h2]
      by_cases hwb : w = b
      · subst hwb
        have h1 : List.filter (fun a => decide ¬(mapGet O a.1 = some a.2)) [(n, w)] = [] := by
          simp [List.filter_cons, hOn]
        rw [h1]
        simp
      · have hne : ¬((some w : Option String) = some b) := by
          intro hc
          exact hwb (by injection hc)
        have h1 : List.filter (fun a => decide ¬(mapGet O a.1 = some a.2)) [(n, b)]
            = [(n, b)] := by
          simp [List.filter_cons, hOn, hne]
        rw [h1]
        simp [hne]
    | none =>
      have h1 : List.filter (fun a => decide ¬(mapGet O a.1 = some a.2)) [(n, b)]
          = [(n, b)] := by
        simp [List.filter_cons, hOn]
      have h2 : (O.filter (fun p => p.1 = n)).filter (fun a => decide (mapGet D a.1 = none))
          = [] := by
        rw [filter_key_of_get_none O n hOn]
        rfl
      rw [h1, h2]
      simp
  | none =>
    rw [filter_key_of_get_none D n hDn]
    cases hOn : mapGet O n with
    | some w =>
      have h2 : (O.filter (fun p => p.1 = n)).filter (fun a => decide (mapGet D a.1 = none))
          = [(n, w)] := by
        rw [filter_key_of_get_some O n w hO hOn]
        simp [List.filter_cons, hDn]
      rw [h2]
      simp
    | none =>
      have h2 : (O.filter (fun p => p.1 = n)).filter (fun a => decide (mapGet D a.1 = none))
          = [] := by
        rw [filter_key_of_get_none O n hOn]
        rfl
      rw [h2]
      simp

/-! ### Applying the issued calls to the observed state -/

theorem applyCalls_append (m : RouteMap) (l₁ l₂ : List Call) :
    applyCalls m (l₁ ++ l₂) = applyCalls (applyCalls m l₁) l₂ :=
  List.foldl_append _ _ _ _

theorem applyCalls_addMap (m A : RouteMap) :
    applyCalls m (A.map (fun p => Call.addOrUpdate p.1 p.2)) = applyAdds m A := by
  induction A generalizing m with
  | nil => rfl
  | cons p rest ih => exact ih _

theorem applyCalls_delMap (m B : RouteMap) :
    applyCalls m (B.map (fun p => Call.delete p.1)) = applyDels m (B.map Prod.fst) := by
  induction B generalizing m with
  | nil => rfl
  | cons p rest ih => exact ih _

/-- After all calls of one diff succeed, the observed table agrees with the
desired mapping at every name. -/
theorem mapGet_applyCalls_diffCalls (D O : RouteMap) (hD : NodupKeys D) (k : String) :
    mapGet (applyCalls O (diffCalls D O)) k = mapGet D k := by
  unfold diffCalls
  rw [applyCalls_append, applyCalls_addMap, applyCalls_delMap, mapGet_applyDels]
  by_cases hdel : k ∈ (O.filter (fun p => mapGet D p.1 = none)).map Prod.fst
  · rw [if_pos hdel]
    obtain ⟨p, hpO, hpk⟩ := List.mem_map.1 hdel
    have hpred := List.of_mem_filter hpO
    simp only [decide_eq_true_eq] at hpred
    rw [← hpk, hpred]
  · rw [if_neg hdel, mapGet_applyAdds]
    cases hA : mapGet ((D.filter (fun p => mapGet O p.1 ≠ some p.2)).reverse) k with
    | some v =>
      have hmem : (k, v) ∈ (D.filter (fun p => mapGet O p.1 ≠ some p.2)).reverse :=
        mem_of_mapGet_eq_some _ k v hA
      have hmemD : (k, v) ∈ D :=
        List.mem_of_mem_filter (List.mem_reverse.1 hmem)
      exact (mapGet_eq_some_of_mem_nodup D k v hD hmemD).symm
    | none =>
      rw [Option.none_or]
      have hkA : k ∉ keys ((D.filter (fun p => mapGet O p.1 ≠ some p.2)).reverse) :=
        (mapGet_eq_none_iff _ _).1 hA
      cases hD2 : mapGet D k with
      | some v =>
        have hmemD : (k, v) ∈ D := mem_of_mapGet_eq_some D k v hD2
        by_cases ho : mapGet O k = some v
        · exact ho
        · exfalso
          have hf : (k, v) ∈ D.filter (fun p => mapGet O p.1 ≠ some p.2) :=
            List.mem_filter.2 ⟨hmemD, by simp [ho]⟩
          exact hkA ((mem_keys_iff _ k).2 ⟨v, List.mem_reverse.2 hf⟩)
      | none =>
        cases hO2 : mapGet O k with
        | none => rfl
        | some w =>
          exfalso
          have hmemO : (k, w) ∈ O := mem_of_mapGet_eq_some O k w hO2
          have hf : (k, w) ∈ O.filter (fun p => mapGet D p.1 = none) :=
            List.mem_filter.2 ⟨hmemO, by simp [hD2]⟩
          exact hdel (List.mem_map.2 ⟨(k, w), hf, rfl⟩)

/-! ### Claim theorems -/

/-- C1: for JS maps `D` (desired) and `O` (observed), the diff-and-apply step
issues, for each route name, exactly one add-or-update call when the name's
desired backend differs from the observed value (including names absent from
`O`), exactly one delete call when the name is observed but not desired, and
no call when both agree; and when `D` agrees with `O` at every name, zero
calls are issued. -/
theorem c1_diff_exact (D O : RouteMap) (hD : NodupKeys D) (hO : NodupKeys O) :
    (∀ n, callsFor n (diffCalls D O)
      = (match mapGet D n, mapGet O n with
         | some b, o => if o = some b then [] else [Call.addOrUpdate n b]
         | none, some _ => [Call.delete n]
         | none, none => []))
    ∧ ((∀ k, mapGet D k = mapGet O k) → diffCalls D O = []) :=
  ⟨callsFor_diffCalls D O hD hO, diffCalls_eq_nil_of_agree D O hD⟩

/-- Witness for C1 at a concrete desired/observed pair covering a changed
name, a new name, an unchanged name, a stale name, and the `D = O` case. -/
theorem c1_diff_exact_witness :
    callsFor "old" (diffCalls [("chg", "1"), ("new", "2"), ("same", "3")]
        [("chg", "9"), ("same", "3"), ("old", "4")]) = [Call.delete "old"]
    ∧ callsFor "chg" (diffCalls [("chg", "1"), ("new", "2"), ("same", "3")]
        [("chg", "9"), ("same", "3"), ("old", "4")]) = [Call.addOrUpdate "chg" "1"]
    ∧ callsFor "same" (diffCalls [("chg", "1"), ("new", "2"), ("same", "3")]
        [("chg", "9"), ("same", "3"), ("old", "4")]) = []
    ∧ diffCalls [("a", "1")] [("a", "1")] = [] := by
  refine ⟨?_, ?_, ?_, ?_⟩
  · rw [(c1_diff_exact [("chg", "1"), ("new", "2"), ("same", "3")]
      [("chg", "9"), ("same", "3"), ("old", "4")] (by decide) (by decide)).1 "old"]
    decide
  · rw [(c1_diff_exact [("chg", "1"), ("new", "2"), ("same", "3")]
      [("chg", "9"), ("same", "3"), ("old", "4")] (by decide) (by decide)).1 "chg"]
    decide
  · rw [(c1_diff_exact [("chg", "1"), ("new", "2"), ("same", "3")]
      [("chg", "9"), ("same", "3"), ("old", "4")] (by decide) (by decide)).1 "same"]
    decide
  · exact (c1_diff_exact [("a", "1")] [("a", "1")] (by decide) (by decide)).2
      (fun _ => rfl)

/-- C2: a manual entry's suffix with a `.` character yields the bare slug as
route name, and a suffix without `.` yields `slug.suffix`; the test is per
suffix, so one entry's mixed list produces both shapes. -/
theorem c2_suffix_dot_rule (cfg : Config) (slug : String) (mc : ManualServerConfig)
    (suffix : String) (hmem : (slug, mc) ∈ cfg.manual)
    (hsuf : suffix ∈ chosenSuffixes cfg mc) :
    (containsChar suffix '.' = true →
      (slug, manualBackend mc) ∈ manualWrites cfg)
    ∧ (containsChar suffix '.' = false →
      (slug ++ "." ++ suffix, manualBackend mc) ∈ manualWrites cfg) := by
  have hw : (manualRouteName slug suffix, manualBackend mc) ∈ manualWrites cfg := by
    unfold manualWrites
    rw [List.mem_flatMap]
    exact ⟨(slug, mc), hmem, List.mem_map.2 ⟨suffix, hsuf, rfl⟩⟩
  constructor
  · intro hdot
    have h : manualRouteName slug suffix = slug := by
      simp [manualRouteName, hdot]
    rwa [h] at hw
  · intro hdot
    have h : manualRouteName slug suffix = slug ++ "." ++ suffix := by
      simp [manualRouteName, hdot]
    rwa [h] at hw

/-- Witness for C2: one entry with the mixed suffix list
`["example.com", "net"]` produces both the bare route name `foo` and the
concatenated route name `foo.net`. -/
theorem c2_suffix_dot_rule_witness :
    ("foo", "h:1") ∈
      manualWrites ⟨[], [("foo", ⟨"h", 1, some ["example.com", "net"]⟩)]⟩
    ∧ ("foo.net", "h:1") ∈
      manualWrites ⟨[], [("foo", ⟨"h", 1, some ["example.com", "net"]⟩)]⟩ :=
  ⟨(c2_suffix_dot_rule ⟨[], [("foo", ⟨"h", 1, some ["example.com", "net"]⟩)]⟩
      "foo" ⟨"h", 1, some ["example.com", "net"]⟩ "example.com"
      (by decide) (by decide)).1 (by decide),
   (c2_suffix_dot_rule ⟨[], [("foo", ⟨"h", 1, some ["example.com", "net"]⟩)]⟩
      "foo" ⟨"h", 1, some ["example.com", "net"]⟩ "net"
      (by decide) (by decide)).2 (by decide)⟩

/-- C3 counterexample: an entry whose `override_suffix` is present but empty
does NOT use the default suffix list, contrary to the claim.  With default
list `["x"]` and entry `s` having `override_suffix: []`, the code chooses
the empty list (a JS array is truthy even when empty) and the entry yields
no routes at all, whereas the claim predicts the route `s.x`. -/
theorem c3_counterexample :
    chosenSuffixes ⟨["x"], [("s", ⟨"h", 1, some []⟩)]⟩ ⟨"h", 1, some []⟩ = []
    ∧ chosenSuffixesSpec ⟨["x"], [("s", ⟨"h", 1, some []⟩)]⟩ ⟨"h", 1, some []⟩ = ["x"]
    ∧ chosenSuffixes ⟨["x"], [("s", ⟨"h", 1, some []⟩)]⟩ ⟨"h", 1, some []⟩
        ≠ chosenSuffixesSpec ⟨["x"], [("s", ⟨"h", 1, some []⟩)]⟩ ⟨"h", 1, some []⟩
    ∧ buildDesired ⟨["x"], [("s", ⟨"h", 1, some []⟩)]⟩ [] = [] := by
  refine ⟨rfl, rfl, by decide, by decide⟩

/-- C3 amended: the suffix list used for a manual entry is
`entry.override_suffix` whenever that field is present — even when it is the
empty list, in which case the entry contributes no route names — and the
config's `default_domain_suffix` only when the field is absent. -/
theorem c3_amended_suffix_list (cfg : Config) (slug : String)
    (mc : ManualServerConfig) :
    (mc.override_suffix = none →
      entryWrites cfg slug mc
        = cfg.default_domain_suffix.map
            (fun suffix => (manualRouteName slug suffix, manualBackend mc)))
    ∧ (∀ l, mc.override_suffix = some l →
      entryWrites cfg slug mc
        = l.map (fun suffix => (manualRouteName slug suffix, manualBackend mc)))
    ∧ (mc.override_suffix = some [] → entryWrites cfg slug mc = []) := by
  refine ⟨fun h => ?_, fun l h => ?_, fun h => ?_⟩ <;>
    simp [entryWrites, chosenSuffixes, h]

/-- Witness for the amended C3: the present-but-empty entry contributes no
route names. -/
theorem c3_amended_suffix_list_witness :
    entryWrites ⟨["x"], [("s", ⟨"h", 1, some []⟩)]⟩ "s" ⟨"h", 1, some []⟩ = [] :=
  (c3_amended_suffix_list ⟨["x"], [("s", ⟨"h", 1, some []⟩)]⟩ "s"
    ⟨"h", 1, some []⟩).2.2 rfl

/-- C4: the desired mapping built in one cycle has no duplicate route names
(each name maps to exactly one backend), and at every route name produced by
a manual entry the final mapping agrees with the manual-only build — the
manual pass runs after, and overwrites, the container-derived routes. -/
theorem c4_unique_backend_manual_precedence (cfg : Config) (dockerRoutes : RouteMap) :
    NodupKeys (buildDesired cfg dockerRoutes)
    ∧ ∀ n, n ∈ keys (manualWrites cfg) →
        mapGet (buildDesired cfg dockerRoutes) n = mapGet (buildDesired cfg []) n := by
  constructor
  · rw [buildDesired_eq_applyAdds]
    exact nodupKeys_applyAdds _ _ (nodupKeys_applyAdds _ _ (by simp [NodupKeys, keys]))
  · intro n hn
    rw [buildDesired_eq_applyAdds, buildDesired_eq_applyAdds]
    simp only [mapGet_applyAdds]
    have hsome : (mapGet (manualWrites cfg).reverse n).isSome := by
      rw [Option.isSome_iff_ne_none]
      intro hc
      apply (mapGet_eq_none_iff _ _).1 hc
      rw [keys, List.map_reverse, List.mem_reverse]
      exact hn
    obtain ⟨v, hv⟩ := Option.isSome_iff_exists.1 hsome
    rw [hv]
    rfl

/-- Witness for C4: a container route and a manual entry collide on
`a.d`; the final mapping carries the manual backend, as in the
container-free build. -/
theorem c4_unique_backend_manual_precedence_witness :
    mapGet (buildDesired ⟨["d"], [("a", ⟨"m", 1, none⟩)]⟩ [("a", "c:9")]) "a.d"
      = mapGet (buildDesired ⟨["d"], [("a", ⟨"m", 1, none⟩)]⟩ []) "a.d"
    ∧ mapGet (buildDesired ⟨["d"], [("a", ⟨"m", 1, none⟩)]⟩ [("a", "c:9")]) "a.d"
      = some "m:1" :=
  ⟨(c4_unique_backend_manual_precedence ⟨["d"], [("a", ⟨"m", 1, none⟩)]⟩
      [("a", "c:9")]).2 "a.d" (by decide), by decide⟩

/-- C5: when the observed-state fetch fails, the cycle issues zero calls and
reports itself skipped, regardless of config and discovery results. -/
theorem c5_fetch_failure_skips (cfg : Config) (hostIP : String)
    (dockerList : Option (List ContainerInfo)) :
    syncRoutes (some cfg) hostIP dockerList none
      = { calls := [], skipped := true } := rfl

/-- C6: in the call list of one cycle every add-or-update call precedes
every delete call: after dropping the leading add-or-update calls no
add-or-update call remains. -/
theorem c6_adds_before_deletes (D O : RouteMap) :
    addsBeforeDeletes (diffCalls D O) = true := by
  unfold addsBeforeDeletes diffCalls
  rw [dropWhile_append_of_all _ _ _
    (by
      intro a ha
      obtain ⟨p, _, rfl⟩ := List.mem_map.1 ha
      rfl)]
  rw [List.all_eq_true]
  intro c hc
  have hc2 := (List.dropWhile_sublist _).subset hc
  obtain ⟨p, _, rfl⟩ := List.mem_map.1 hc2
  rfl

/-- C7: applying the same desired mapping again, against the observed state
that results from all calls of the first application succeeding, issues zero
further calls. -/
theorem c7_idempotent (D O : RouteMap) (hD : NodupKeys D) :
    diffCalls D (applyCalls O (diffCalls D O)) = [] :=
  diffCalls_eq_nil_of_agree D _ hD
    (fun k => (mapGet_applyCalls_diffCalls D O hD k).symm)

/-- Witness for C7 at a concrete pair that triggers an add and a delete. -/
theorem c7_idempotent_witness :
    diffCalls [("a", "1")]
      (applyCalls [("b", "9")] (diffCalls [("a", "1")] [("b", "9")])) = [] :=
  c7_idempotent [("a", "1")] [("b", "9")] (by decide)

/-- C8: when container discovery fails, the cycle still runs its diff with a
desired mapping built from the manual entries alone. -/
theorem c8_discovery_failure_manual_only (cfg : Config) (hostIP : String)
    (current : RouteMap) :
    syncRoutes (some cfg) hostIP none (some current)
      = { calls := diffCalls (applyAdds [] (manualWrites cfg)) current,
          skipped := false } := by
  have hb : buildDesired cfg [] = applyAdds [] (manualWrites cfg) := by
    rw [buildDesired_eq_applyAdds]
    rfl
  show CycleResult.mk (diffCalls (buildDesired cfg []) current) false = _
  rw [hb]

/-- C9 counterexample: slugs `a.b` (backend `H:1000`, enumerated first) and
`a` (backend `H:2000`, enumerated last) with suffix list `["c", "b.c"]`
produce the names `a.b.c` and `a.b.b.c` for slug `a.b`, yet in the final
container-derived mapping those two names carry different backends: the
expansion `a.b.c` of slug `a.b` is overwritten by the expansion of slug
`a` with suffix `b.c`. -/
theorem c9_counterexample :
    getDockerRoutes "H" [⟨[("router.slug", "a.b")], [⟨some 1000⟩]⟩,
        ⟨[("router.slug", "a")], [⟨some 2000⟩]⟩]
      = [("a.b", "H:1000"), ("a", "H:2000")]
    ∧ mapGet (buildDesired ⟨["c", "b.c"], []⟩
        (getDockerRoutes "H" [⟨[("router.slug", "a.b")], [⟨some 1000⟩]⟩,
          ⟨[("router.slug", "a")], [⟨some 2000⟩]⟩])) "a.b.c" = some "H:2000"
    ∧ mapGet (buildDesired ⟨["c", "b.c"], []⟩
        (getDockerRoutes "H" [⟨[("router.slug", "a.b")], [⟨some 1000⟩]⟩,
          ⟨[("router.slug", "a")], [⟨some 2000⟩]⟩])) "a.b.b.c" = some "H:1000" := by
  refine ⟨by decide, by decide, by decide⟩

/-- C9 amended: discovered routes are deduplicated at the slug level before
suffix expansion — the slug → backend map has no duplicate slugs, and each
slug maps to the backend of the write enumerated last for it; the
suffix-expansions of a slug are therefore all written with that single
backend, though a route name generated by two different slugs ends up with
the later slug's backend. -/
theorem c9_amended_slug_dedup (hostIP : String) (cs : List ContainerInfo) :
    NodupKeys (getDockerRoutes hostIP cs)
    ∧ ∀ slug, mapGet (getDockerRoutes hostIP cs) slug
        = mapGet (dockerSlugWrites hostIP cs).reverse slug := by
  constructor
  · rw [getDockerRoutes_eq_applyAdds]
    exact nodupKeys_applyAdds _ _ (by simp [NodupKeys, keys])
  · intro slug
    rw [getDockerRoutes_eq_applyAdds, mapGet_applyAdds]
    cases mapGet (dockerSlugWrites hostIP cs).reverse slug <;> rfl

/-- C10: in one cycle the names receiving an add-or-update call and the
names receiving a delete call are disjoint; in particular a name present in
the desired mapping is never deleted. -/
theorem c10_add_delete_disjoint (D O : RouteMap) (n : String) :
    ((mapGet D n).isSome → Call.delete n ∉ diffCalls D O)
    ∧ (∀ b, Call.addOrUpdate n b ∈ diffCalls D O →
        Call.delete n ∉ diffCalls D O) := by
  have key : (mapGet D n).isSome → Call.delete n ∉ diffCalls D O := by
    intro hsome hmem
    unfold diffCalls at hmem
    rcases List.mem_append.1 hmem with h | h
    · obtain ⟨p, _, hc⟩ := List.mem_map.1 h
      exact Call.noConfusion hc
    · obtain ⟨p, hpf, hc⟩ := List.mem_map.1 h
      have hn : p.1 = n := by injection hc
      have hpred := List.of_mem_filter hpf
      simp only [decide_eq_true_eq] at hpred
      rw [hn] at hpred
      rw [hpred] at hsome
      exact Bool.noConfusion hsome
  refine ⟨key, fun b hadd => key ?_⟩
  unfold diffCalls at hadd
  rcases List.mem_append.1 hadd with h | h
  · obtain ⟨p, hpf, hc⟩ := List.mem_map.1 h
    have h1 : p.1 = n := by injection hc
    have hmem : (n, p.2) ∈ D := by
      rw [← h1, Prod.mk.eta]
      exact List.mem_of_mem_filter hpf
    exact mapGet_isSome_of_mem D n p.2 hmem
  · obtain ⟨p, _, hc⟩ := List.mem_map.1 h
    exact Call.noConfusion hc

/-- Witness for C10: the desired name `a` gets an add-or-update (its backend
changed) but no delete, while the stale name `b` is deleted. -/
theorem c10_add_delete_disjoint_witness :
    Call.delete "a" ∉ diffCalls [("a", "1")] [("a", "2"), ("b", "3")]
    ∧ diffCalls [("a", "1")] [("a", "2"), ("b", "3")]
        = [Call.addOrUpdate "a" "1", Call.delete "b"] :=
  ⟨(c10_add_delete_disjoint [("a", "1")] [("a", "2"), ("b", "3")] "a").1
      (by decide), by decide⟩

end McrSync
